import Mathlib

/-!
Verification of the `spectra` front-end (a lexer and a recursive-descent /
precedence-climbing parser for a small expression language).

The definitions below are a shallow embedding of `src/token.rs`,
`src/lexer.rs`, `src/ast.rs` and `src/parser.rs`:
* the source text is a `List Char` (Rust iterates decoded `char`s);
* byte offsets are `Nat`, advanced by `Char.utf8Size` exactly as the Rust
  code advances `offset` by `char::len_utf8`;
* the `Lexer` struct is embedded field by field (`source`, the remainder of
  the `Chars` iterator, `offset`, `current`, `next`);
* the parser's `Peekable<Lexer>` token source is embedded as the list of
  tokens produced by the lexer (peek = head, next = uncons), and the
  general recursion of the mutually recursive parse functions is made
  total with a fuel parameter: `none` means the fuel ran out, and is
  distinct from a genuine `ParseError`.
-/

namespace Spectra

/-- The `Location` from `src/token.rs`: half-open byte range `[start, end)`. -/
structure Location where
  start : Nat
  stop : Nat
  deriving DecidableEq, Repr

/-- The `Keyword` from `src/token.rs`. -/
inductive Keyword where
  | Fun
  | Class
  | While
  | If
  | Else
  | Var
  | Break
  | Continue
  | Return
  deriving DecidableEq, Repr

/-- The `Punctuation` from `src/token.rs`.

`Eq` is not declared in `src/token.rs`, yet `Parser::parse_statement`
(`src/parser.rs` line 332) consumes `Punctuation::Eq` after the name of a
`var` declaration. Modelled from the spec: the `var NAME = EXPR ;` statement
requires a `=` token whose human-readable rendering is `` `=` ``; the
declaration of this variant is the part missing from the sources. -/
inductive Punctuation where
  | Plus
  | PlusPlus
  | PlusEq
  | Minus
  | MinusMinus
  | MinusEq
  | Star
  | StarStar
  | StarEq
  | Slash
  | SlashEq
  | OpenParent
  | CloseParent
  | OpenBracket
  | CloseBracket
  | OpenBrace
  | CloseBrace
  | Semicolon
  | Comma
  | Dot
  | Eq
  deriving DecidableEq, Repr

/-- The `Precedence` from `src/token.rs` (declaration order = increasing order,
as derived by Rust's `PartialOrd`/`Ord`). -/
inductive Precedence where
  | Lowest
  | Assign
  | Sum
  | Product
  | Power
  | Call
  | FieldAccess
  deriving DecidableEq, Repr

/-- The rank a `Precedence` value gets from Rust's derived `Ord`
(declaration order). -/
def Precedence.toNat : Precedence → Nat
  | .Lowest => 0
  | .Assign => 1
  | .Sum => 2
  | .Product => 3
  | .Power => 4
  | .Call => 5
  | .FieldAccess => 6

/-- The strict `<` of Rust's derived `PartialOrd` on `Precedence`. -/
def Precedence.lt (a b : Precedence) : Bool :=
  a.toNat < b.toNat

/-- The `RawToken` from `src/token.rs`. The `FloatLiteral` payload (`f64`) is
not modelled: the lexer never produces a float token (`// TODO: process
floating-point numbers`) and the parser never inspects one. -/
inductive RawToken where
  | Identifier (name : String)
  | StringLiteral (value : String)
  | Keyword (keyword : Keyword)
  | Punctuation (punctuation : Punctuation)
  | BoolLiteral (value : Bool)
  | IntegerLiteral (value : Nat)
  | FloatLiteral
  | CharLiteral (value : Char)
  | UnexpectedChar (c : Char)
  deriving DecidableEq, Repr

/-- The `impl From<Punctuation> for Precedence` from `src/token.rs`.
(`Eq`, being absent from the source enum, can only take the `_ => Lowest`
catch-all arm, which also agrees with the spec's "everything else →
Lowest".) -/
def Punctuation.precedence : Punctuation → Precedence
  | .PlusEq | .MinusEq | .StarEq | .SlashEq | .PlusPlus | .MinusMinus => .Assign
  | .Plus | .Minus => .Sum
  | .Star | .Slash => .Product
  | .StarStar => .Power
  | .OpenParent => .Call
  | .Dot => .FieldAccess
  | _ => .Lowest

/-- The `impl From<RawToken> for Precedence` from `src/token.rs`. -/
def RawToken.precedence : RawToken → Precedence
  | .Punctuation p => p.precedence
  | _ => .Lowest

/-- The `impl fmt::Display for Keyword` from `src/token.rs`. -/
def Keyword.display : Keyword → String
  | .Fun => "`fun`"
  | .Class => "`class`"
  | .While => "`while`"
  | .If => "`if`"
  | .Else => "`else`"
  | .Var => "`var`"
  | .Break => "`break`"
  | .Continue => "`continue`"
  | .Return => "`return`"

/-- The `impl fmt::Display for Punctuation` from `src/token.rs`, extended with
the spec-modelled `Eq → `=`` rendering (see `Punctuation.Eq`). -/
def Punctuation.display : Punctuation → String
  | .Plus => "`+`"
  | .PlusPlus => "`++`"
  | .PlusEq => "`+=`"
  | .Minus => "`-`"
  | .MinusMinus => "`--`"
  | .MinusEq => "`-=`"
  | .Star => "`*`"
  | .StarStar => "`**`"
  | .StarEq => "`*=`"
  | .Slash => "`/`"
  | .SlashEq => "`/=`"
  | .OpenParent => "`(`"
  | .CloseParent => "`)`"
  | .OpenBracket => "`[`"
  | .CloseBracket => "`]`"
  | .OpenBrace => "`\x7b`"
  | .CloseBrace => "`\x7d`"
  | .Semicolon => "`;`"
  | .Comma => "`,`"
  | .Dot => "`.`"
  | .Eq => "`=`"

/-- The `impl fmt::Display for RawToken` from `src/token.rs` (the float arm,
whose payload is not modelled, is rendered as an empty string; it is never
reached). -/
def RawToken.display : RawToken → String
  | .Keyword k => k.display
  | .Identifier name => "identifier `" ++ name ++ "`"
  | .StringLiteral value => value
  | .Punctuation p => p.display
  | .BoolLiteral true => "`true`"
  | .BoolLiteral false => "`false`"
  | .IntegerLiteral value => toString value
  | .FloatLiteral => ""
  | .CharLiteral value => "'" ++ String.singleton value ++ "'"
  | .UnexpectedChar _ => "invalid token"

/-- The `Token` from `src/token.rs`. -/
structure Token where
  raw : RawToken
  location : Location
  deriving DecidableEq, Repr

/-- The `KEYWORDS` perfect-hash map from `src/token.rs`, as a lookup
function. -/
def keywordLookup (s : String) : Option RawToken :=
  if s = "true" then some (.BoolLiteral true)
  else if s = "false" then some (.BoolLiteral false)
  else if s = "fun" then some (.Keyword .Fun)
  else if s = "class" then some (.Keyword .Class)
  else if s = "while" then some (.Keyword .While)
  else if s = "if" then some (.Keyword .If)
  else if s = "else" then some (.Keyword .Else)
  else if s = "var" then some (.Keyword .Var)
  else if s = "break" then some (.Keyword .Break)
  else if s = "continue" then some (.Keyword .Continue)
  else if s = "return" then some (.Keyword .Return)
  else none

/-! ## The lexer (`src/lexer.rs`) -/

/-- The `is_whitespace` from `src/lexer.rs` (the exact code-point list of the
source, not general Unicode whitespace). -/
def isWhitespace (c : Char) : Bool :=
  c = '\x09' || c = '\x0A' || c = '\x0B' || c = '\x0C' || c = '\x0D' ||
  c = ' ' || c = '\u0085' || c = '\u200E' || c = '\u200F' ||
  c = '\u2028' || c = '\u2029'

/-- The `is_xid_start` of the external `unicode_xid` crate. Modelled from the
spec: "Unicode identifier-start"; restricted to its ASCII fragment
(letters), which is all the claims exercise. -/
def isXidStart (c : Char) : Bool :=
  c.isAlpha

/-- The `is_xid_continue` of the external `unicode_xid` crate. Modelled from
the spec: "identifier-continue characters"; restricted to its ASCII
fragment (letters, digits and the underscore). -/
def isXidContinue (c : Char) : Bool :=
  c.isAlphanum || c = '_'

/-- The `is_id_start` from `src/lexer.rs`. -/
def isIdStart (c : Char) : Bool :=
  c = '_' || isXidStart c

/-- The `is_id_continue` from `src/lexer.rs`. -/
def isIdContinue (c : Char) : Bool :=
  isXidContinue c

/-- The `Lexer` struct from `src/lexer.rs`. `rest` is the remainder of the
`Chars` iterator (the characters after `next`). -/
structure Lexer where
  source : List Char
  rest : List Char
  offset : Nat
  current : Char
  next : Char
  deriving Repr

/-- The `Lexer::new`: `current`/`next` are the first two characters (or the
`'\0'` sentinel, from `unwrap_or('\0')`). -/
def Lexer.new (source : List Char) : Lexer :=
  { source := source
    rest := source.drop 2
    offset := 0
    current := source.headD '\x00'
    next := (source.drop 1).headD '\x00' }

/-- The `Lexer::advance`. -/
def Lexer.advance (l : Lexer) : Lexer :=
  { l with
    current := l.next
    next := l.rest.headD '\x00'
    rest := l.rest.tail
    offset := l.offset + l.current.utf8Size }

/-- The `Lexer::eof`. -/
def Lexer.eof (l : Lexer) : Bool :=
  l.current = '\x00'

/-- Termination measure for the lexer's scanning loops: every `advance`
performed while `current ≠ '\0'` strictly decreases it. -/
def Lexer.fuelLeft (l : Lexer) : Nat :=
  l.rest.length + (if l.next = '\x00' then 0 else 1) +
    (if l.current = '\x00' then 0 else 1)

/-- The loop of `Lexer::skip_whitespaces`, bounded by an iteration
counter. `Lexer.skipWhitespacesGo_congr` shows any counter at least
`fuelLeft` computes the (terminating) unbounded loop of the source. -/
def Lexer.skipWhitespacesGo : Nat → Lexer → Lexer
  | 0, l => l
  | n + 1, l =>
    if isWhitespace l.current then Lexer.skipWhitespacesGo n l.advance else l

/-- The `Lexer::skip_whitespaces`. -/
def Lexer.skipWhitespaces (l : Lexer) : Lexer :=
  Lexer.skipWhitespacesGo l.fuelLeft l

/-- The loop of `Lexer::advance_while` (the state part; the returned
`&str` slice is `byteSlice source start_offset offset`, computed by the
callers below), bounded by an iteration counter.
`Lexer.advanceWhileGo_congr` shows any counter at least `fuelLeft`
computes the (terminating) unbounded loop of the source. -/
def Lexer.advanceWhileGo (f : Char → Char → Bool) : Nat → Lexer → Lexer
  | 0, l => l
  | n + 1, l =>
    if f l.current l.next && !l.eof then Lexer.advanceWhileGo f n l.advance
    else l

/-- The state effect of `Lexer::advance_while`. -/
def Lexer.advanceWhile (f : Char → Char → Bool) (l : Lexer) : Lexer :=
  Lexer.advanceWhileGo f l.fuelLeft l

/-- The `&self.source[start..stop]` with byte indices: the characters of
`s` whose starting byte position lies in `[start, stop)`.
`pos` is the byte position of the head of `s`. -/
def byteSliceAux (s : List Char) (pos start stop : Nat) : List Char :=
  match s with
  | [] => []
  | c :: cs =>
    let tail := byteSliceAux cs (pos + c.utf8Size) start stop
    if start ≤ pos ∧ pos < stop then c :: tail else tail

def byteSlice (s : List Char) (start stop : Nat) : List Char :=
  byteSliceAux s 0 start stop

/-- The `Lexer::current_char_location`. -/
def Lexer.currentCharLocation (l : Lexer) : Location :=
  ⟨l.offset, l.offset + 1⟩

/-- The `Lexer::location_from`. -/
def Lexer.locationFrom (l : Lexer) (startOffset : Nat) : Location :=
  ⟨startOffset, l.offset⟩

/-- The `Lexer::advance_with`. -/
def Lexer.advanceWith (l : Lexer) (raw : RawToken) : Token × Lexer :=
  (⟨raw, l.currentCharLocation⟩, l.advance)

/-- The `Lexer::advance_twice_with`. -/
def Lexer.advanceTwiceWith (l : Lexer) (raw : RawToken) : Token × Lexer :=
  (⟨raw, ⟨l.offset, l.offset + 2⟩⟩, l.advance.advance)

/-- The `Lexer::next_identifier_or_keyword_token`. -/
def Lexer.nextIdentifierOrKeywordToken (l : Lexer) : Token × Lexer :=
  let startOffset := l.offset
  let l' := l.advanceWhile (fun current _ => isIdContinue current)
  let identifierCandidate := String.mk (byteSlice l'.source startOffset l'.offset)
  match keywordLookup identifierCandidate with
  | some keyword => (⟨keyword, l'.locationFrom startOffset⟩, l')
  | none => (⟨.Identifier identifierCandidate, l'.locationFrom startOffset⟩, l')

/-- The `number_string.parse::<u64>().unwrap()` on a run of ASCII digits.
(The Rust call panics when the value exceeds `u64::MAX`; the spec flags
that behaviour as undefined and no claim exercises it, so the numeric
value is returned unreduced.) -/
def parseDigits (s : List Char) : Nat :=
  s.foldl (fun acc c => acc * 10 + (c.toNat - '0'.toNat)) 0

/-- The `Lexer::next_number_token`. -/
def Lexer.nextNumberToken (l : Lexer) : Token × Lexer :=
  let startOffset := l.offset
  let l' := l.advanceWhile (fun current _ => current.isDigit)
  let numberString := byteSlice l'.source startOffset l'.offset
  (⟨.IntegerLiteral (parseDigits numberString), l'.locationFrom startOffset⟩, l')

/-- The `Lexer::next_string_token`. Note that, exactly as in the source, the
scan starts at the opening `"` itself, so the predicate
`current != '"'` is false immediately: no character is consumed. -/
def Lexer.nextStringToken (l : Lexer) : Token × Lexer :=
  let startOffset := l.offset
  let l' := l.advanceWhile (fun current _ => current ≠ '\"')
  let string := byteSlice l'.source startOffset l'.offset
  (⟨.StringLiteral (String.mk string), l'.locationFrom startOffset⟩, l')

/-- The `match (self.current, self.next)` dispatch of
`<Lexer as Iterator>::next` (`src/lexer.rs` lines 155-189), with the arms
in source order. -/
def Lexer.dispatch (l : Lexer) : Token × Lexer :=
  match l.current, l.next with
  | '+', '+' => l.advanceTwiceWith (.Punctuation .PlusPlus)
  | '+', '=' => l.advanceTwiceWith (.Punctuation .PlusEq)
  | '+', _ => l.advanceWith (.Punctuation .Plus)
  | '-', '-' => l.advanceTwiceWith (.Punctuation .MinusMinus)
  | '-', '=' => l.advanceTwiceWith (.Punctuation .MinusEq)
  | '-', _ => l.advanceWith (.Punctuation .Minus)
  | '/', '=' => l.advanceTwiceWith (.Punctuation .SlashEq)
  | '*', '=' => l.advanceTwiceWith (.Punctuation .StarEq)
  | '*', '*' => l.advanceWith (.Punctuation .StarStar)
  | '*', _ => l.advanceWith (.Punctuation .Star)
  | '/', _ => l.advanceWith (.Punctuation .Slash)
  | '(', _ => l.advanceWith (.Punctuation .OpenParent)
  | ')', _ => l.advanceWith (.Punctuation .CloseParent)
  | '[', _ => l.advanceWith (.Punctuation .OpenBracket)
  | ']', _ => l.advanceWith (.Punctuation .CloseBracket)
  | '\x7b', _ => l.advanceWith (.Punctuation .OpenBrace)
  | '\x7d', _ => l.advanceWith (.Punctuation .CloseBrace)
  | ';', _ => l.advanceWith (.Punctuation .Semicolon)
  | ',', _ => l.advanceWith (.Punctuation .Comma)
  | '.', _ => l.advanceWith (.Punctuation .Dot)
  | '\"', _ => l.nextStringToken
  | _, _ =>
    if isIdStart l.current then l.nextIdentifierOrKeywordToken
    else if l.current.isDigit then l.nextNumberToken
    else (⟨.UnexpectedChar l.current, l.currentCharLocation⟩, l)

/-- The `<Lexer as Iterator>::next`. -/
def Lexer.nextToken (l : Lexer) : Option (Token × Lexer) :=
  let l' := l.skipWhitespaces
  if l'.eof then none else some l'.dispatch

/-- Pull tokens until end-of-input, with fuel: `none` means the stream did
not end within `fuel` pulls, `some ts` that it ended after producing
exactly `ts`. -/
def lexRun (fuel : Nat) (l : Lexer) : Option (List Token) :=
  match fuel with
  | 0 => none
  | fuel + 1 =>
    match l.nextToken with
    | none => some []
    | some (t, l') => (lexRun fuel l').map (t :: ·)

/-! ## Index-level description of the lexer

To reason about a whole lexer run, the mutable cursor is described by the
number `p` of characters consumed so far: `stateAt s p` is the state of a
lexer over source `s` whose scan position is `p`. The functions below
compute, at the index level, what the scanning loops and the dispatch of
`Lexer::next` do, and are proved to agree with the state-passing
definitions above. -/

/-- The character at index `p`, or the `'\0'` sentinel past the end
(mirroring `Chars::next().unwrap_or('\0')`). -/
def sentinelNth (s : List Char) (p : Nat) : Char :=
  (s.drop p).headD '\x00'

/-- The byte offset of the character at index `p`. -/
def offsetAt (s : List Char) (p : Nat) : Nat :=
  ((s.take p).map Char.utf8Size).sum

/-- The UTF-8 byte length of `s`. -/
def byteLen (s : List Char) : Nat :=
  (s.map Char.utf8Size).sum

/-- The lexer state over source `s` after consuming `p` characters. -/
def stateAt (s : List Char) (p : Nat) : Lexer :=
  { source := s
    rest := s.drop (p + 2)
    offset := offsetAt s p
    current := sentinelNth s p
    next := sentinelNth s (p + 1) }

/-- Index-level `skip_whitespaces` (bounded by the remaining length, which
suffices: each iteration needs a whitespace, hence a non-sentinel,
character). -/
def wsEndGo (s : List Char) : Nat → Nat → Nat
  | 0, p => p
  | n + 1, p => if isWhitespace (sentinelNth s p) then wsEndGo s n (p + 1) else p

def wsEnd (s : List Char) (p : Nat) : Nat :=
  wsEndGo s (s.length - p) p

/-- Index-level `advance_while` scan for a predicate `g` on the current
character (all three `advance_while` call sites ignore the lookahead). -/
def scanEndGo (g : Char → Bool) (s : List Char) : Nat → Nat → Nat
  | 0, p => p
  | n + 1, p =>
    if g (sentinelNth s p) && !(decide (sentinelNth s p = '\x00')) then
      scanEndGo g s n (p + 1)
    else p

def scanEnd (g : Char → Bool) (s : List Char) (p : Nat) : Nat :=
  scanEndGo g s (s.length - p) p

/-- Index-level version of the dispatch of `Lexer::next`: the token
starting at index `q` and the index after it. The match arms mirror
`Lexer.dispatch` one for one. -/
def stepAt (s : List Char) (q : Nat) : Token × Nat :=
  match sentinelNth s q, sentinelNth s (q + 1) with
  | '+', '+' => (⟨.Punctuation .PlusPlus, ⟨offsetAt s q, offsetAt s q + 2⟩⟩, q + 2)
  | '+', '=' => (⟨.Punctuation .PlusEq, ⟨offsetAt s q, offsetAt s q + 2⟩⟩, q + 2)
  | '+', _ => (⟨.Punctuation .Plus, ⟨offsetAt s q, offsetAt s q + 1⟩⟩, q + 1)
  | '-', '-' => (⟨.Punctuation .MinusMinus, ⟨offsetAt s q, offsetAt s q + 2⟩⟩, q + 2)
  | '-', '=' => (⟨.Punctuation .MinusEq, ⟨offsetAt s q, offsetAt s q + 2⟩⟩, q + 2)
  | '-', _ => (⟨.Punctuation .Minus, ⟨offsetAt s q, offsetAt s q + 1⟩⟩, q + 1)
  | '/', '=' => (⟨.Punctuation .SlashEq, ⟨offsetAt s q, offsetAt s q + 2⟩⟩, q + 2)
  | '*', '=' => (⟨.Punctuation .StarEq, ⟨offsetAt s q, offsetAt s q + 2⟩⟩, q + 2)
  | '*', '*' => (⟨.Punctuation .StarStar, ⟨offsetAt s q, offsetAt s q + 1⟩⟩, q + 1)
  | '*', _ => (⟨.Punctuation .Star, ⟨offsetAt s q, offsetAt s q + 1⟩⟩, q + 1)
  | '/', _ => (⟨.Punctuation .Slash, ⟨offsetAt s q, offsetAt s q + 1⟩⟩, q + 1)
  | '(', _ => (⟨.Punctuation .OpenParent, ⟨offsetAt s q, offsetAt s q + 1⟩⟩, q + 1)
  | ')', _ => (⟨.Punctuation .CloseParent, ⟨offsetAt s q, offsetAt s q + 1⟩⟩, q + 1)
  | '[', _ => (⟨.Punctuation .OpenBracket, ⟨offsetAt s q, offsetAt s q + 1⟩⟩, q + 1)
  | ']', _ => (⟨.Punctuation .CloseBracket, ⟨offsetAt s q, offsetAt s q + 1⟩⟩, q + 1)
  | '\x7b', _ => (⟨.Punctuation .OpenBrace, ⟨offsetAt s q, offsetAt s q + 1⟩⟩, q + 1)
  | '\x7d', _ => (⟨.Punctuation .CloseBrace, ⟨offsetAt s q, offsetAt s q + 1⟩⟩, q + 1)
  | ';', _ => (⟨.Punctuation .Semicolon, ⟨offsetAt s q, offsetAt s q + 1⟩⟩, q + 1)
  | ',', _ => (⟨.Punctuation .Comma, ⟨offsetAt s q, offsetAt s q + 1⟩⟩, q + 1)
  | '.', _ => (⟨.Punctuation .Dot, ⟨offsetAt s q, offsetAt s q + 1⟩⟩, q + 1)
  | '\"', _ =>
    (⟨.StringLiteral (String.mk (byteSlice s (offsetAt s q)
        (offsetAt s (scanEnd (fun current => decide (current ≠ '\"')) s q)))),
      ⟨offsetAt s q,
        offsetAt s (scanEnd (fun current => decide (current ≠ '\"')) s q)⟩⟩,
      scanEnd (fun current => decide (current ≠ '\"')) s q)
  | _, _ =>
    if isIdStart (sentinelNth s q) then
      match keywordLookup (String.mk (byteSlice s (offsetAt s q)
          (offsetAt s (scanEnd isIdContinue s q)))) with
      | some keyword =>
        (⟨keyword, ⟨offsetAt s q, offsetAt s (scanEnd isIdContinue s q)⟩⟩,
          scanEnd isIdContinue s q)
      | none =>
        (⟨.Identifier (String.mk (byteSlice s (offsetAt s q)
            (offsetAt s (scanEnd isIdContinue s q)))),
          ⟨offsetAt s q, offsetAt s (scanEnd isIdContinue s q)⟩⟩,
          scanEnd isIdContinue s q)
    else if (sentinelNth s q).isDigit then
      (⟨.IntegerLiteral (parseDigits (byteSlice s (offsetAt s q)
          (offsetAt s (scanEnd Char.isDigit s q)))),
        ⟨offsetAt s q, offsetAt s (scanEnd Char.isDigit s q)⟩⟩,
        scanEnd Char.isDigit s q)
    else
      (⟨.UnexpectedChar (sentinelNth s q),
        ⟨offsetAt s q, offsetAt s q + 1⟩⟩, q)

/-! ## The AST (`src/ast.rs`) -/

/-- The `IdentifierAST` from `src/ast.rs`. -/
structure IdentifierAST where
  identifier : String
  location : Location
  deriving DecidableEq, Repr

/-- The `RawLiteral` from `src/ast.rs` (the unproduced `Float` payload is not
modelled, as for `RawToken.FloatLiteral`). -/
inductive RawLiteral where
  | Integer (value : Nat)
  | Float
  | String (value : String)
  | Char (value : Char)
  | Bool (value : Bool)
  deriving DecidableEq, Repr

/-- The `Literal` from `src/ast.rs`. -/
structure Literal where
  raw : RawLiteral
  location : Location
  deriving DecidableEq, Repr

mutual

/-- The `Expression` from `src/ast.rs`. The source's `Postfix` and `Prefix`
variants are named `PostOp` and `PreOp` here. -/
inductive Expression where
  | Literal (literal : Literal)
  | Binary (left : Expression) (right : Expression) (operator : Token)
      (location : Location)
  | PostOp (left : Expression) (operator : Token) (location : Location)
  | PreOp (operator : Token) (right : Expression) (location : Location)
  | Identifier (identifier : IdentifierAST)
  | Call (callee : Expression) (arguments : List Expression)
      (location : Location)
  | FieldAccess (left : Expression) (right : IdentifierAST)
      (location : Location)
  | Function (parameters : List IdentifierAST) (block : StatementsBlock)
      (location : Location)
  deriving Repr

/-- The `Statement` from `src/ast.rs`. -/
inductive Statement where
  | Expression (location : Location) (expression : Expression)
  | Return (location : Location) (returnValue : Expression)
  | Break (location : Location)
  | Continue (location : Location)
  | Var (location : Location) (name : IdentifierAST) (value : Expression)
  deriving Repr

/-- The `StatementsBlock` from `src/ast.rs`. -/
inductive StatementsBlock where
  | mk (statements : List Statement) (location : Location)
  deriving Repr

end

def StatementsBlock.statements : StatementsBlock → List Statement
  | .mk statements _ => statements

def StatementsBlock.location : StatementsBlock → Location
  | .mk _ location => location

/-- The `Expression::location` from `src/ast.rs`. -/
def Expression.location : Expression → Location
  | .Identifier i => i.location
  | .PreOp _ _ location => location
  | .PostOp _ _ location => location
  | .Binary _ _ _ location => location
  | .Literal l => l.location
  | .Call _ _ location => location
  | .FieldAccess _ _ location => location
  | .Function _ _ location => location

/-- The `Module` from `src/ast.rs`. -/
def Module := List Statement

/-! ## The parser (`src/parser.rs`)

The `Peekable<Lexer>` token source is embedded as a `List Token`
(`peek` = `head?`, `next` = uncons). The mutually recursive parse
functions take a fuel parameter decremented at every call; `none` means
the fuel ran out. -/

/-- The `ParseError` from `src/parser.rs`. -/
structure ParseError where
  expected : String
  got : Option Token
  deriving DecidableEq, Repr

/-- The `ParseResult` from `src/parser.rs` (a transparent type alias, as in
the source). -/
abbrev ParseResult (α : Type) := Except ParseError α

/-- The `Parser::consume_and_return` over the remaining token list. -/
def consumeAndReturn (expected : RawToken) (ts : List Token) :
    ParseResult (Token × List Token) :=
  match ts with
  | got :: rest =>
    if got.raw = expected then .ok (got, rest)
    else .error ⟨expected.display, some got⟩
  | [] => .error ⟨expected.display, none⟩

/-- The `Parser::consume` (`consume_and_return` with the token dropped). -/
def consume (expected : RawToken) (ts : List Token) :
    ParseResult (List Token) :=
  match consumeAndReturn expected ts with
  | .ok (_, rest) => .ok rest
  | .error e => .error e

/-- The `Parser::consume_identifier`. -/
def consumeIdentifier (ts : List Token) :
    ParseResult (IdentifierAST × List Token) :=
  match ts with
  | got :: rest =>
    match got.raw with
    | .Identifier identifier => .ok (⟨identifier, got.location⟩, rest)
    | _ => .error ⟨"identifier", some got⟩
  | [] => .error ⟨"identifier", none⟩

/-- The `self.lexer.peek().map(|t| t.clone().into()).unwrap_or(Precedence::Lowest)`
from `Parser::parse_expression`. -/
def peekPrecedence (ts : List Token) : Precedence :=
  match ts with
  | t :: _ => t.raw.precedence
  | [] => .Lowest

/-- The `self.lexer.peek().is_some_and(|token| token.raw != raw)` from the
parser's scanning loops. -/
def peekIsSomeAndNotRaw (raw : RawToken) (ts : List Token) : Bool :=
  match ts with
  | t :: _ => if t.raw = raw then false else true
  | [] => false

/-- The `self.lexer.peek().is_some_and(|token| token.raw == raw)` from the
parser's scanning loops. -/
def peekIsSomeAndRaw (raw : RawToken) (ts : List Token) : Bool :=
  match ts with
  | t :: _ => if t.raw = raw then true else false
  | [] => false

mutual

/-- The `Parser::parse_primary_expression`, with the source's match arms in
order. In the default arm the offending token has been taken by
`self.lexer.next()`, hence it is consumed here too. -/
def parsePrimary : Nat → List Token →
    Option (ParseResult (Expression × List Token))
  | 0, _ => none
  | fuel + 1, ts =>
    match ts with
    | ⟨.Punctuation .OpenParent, _⟩ :: rest =>
      match parseExpression fuel .Lowest rest with
      | none => none
      | some (.error e) => some (.error e)
      | some (.ok (inner, rest')) =>
        match consume (.Punctuation .CloseParent) rest' with
        | .error e => some (.error e)
        | .ok rest'' => some (.ok (inner, rest''))
    | ⟨.Identifier identifier, location⟩ :: rest =>
      some (.ok (.Identifier ⟨identifier, location⟩, rest))
    | ⟨.IntegerLiteral value, location⟩ :: rest =>
      some (.ok (.Literal ⟨.Integer value, location⟩, rest))
    | ⟨.BoolLiteral value, location⟩ :: rest =>
      some (.ok (.Literal ⟨.Bool value, location⟩, rest))
    | ⟨.StringLiteral value, location⟩ :: rest =>
      some (.ok (.Literal ⟨.String value, location⟩, rest))
    | ⟨.CharLiteral value, location⟩ :: rest =>
      some (.ok (.Literal ⟨.Char value, location⟩, rest))
    | ⟨.Keyword .Fun, location⟩ :: rest =>
      match consume (.Punctuation .OpenParent) rest with
      | .error e => some (.error e)
      | .ok rest' =>
        match parseFunParameters fuel [] rest' with
        | none => none
        | some (.error e) => some (.error e)
        | some (.ok (parameters, rest'')) =>
          match consume (.Punctuation .CloseParent) rest'' with
          | .error e => some (.error e)
          | .ok rest3 =>
            match parseStatementsBlock fuel rest3 with
            | none => none
            | some (.error e) => some (.error e)
            | some (.ok (block, rest4)) =>
              some (.ok (.Function parameters block
                ⟨location.start, block.location.stop⟩, rest4))
    | got :: _ => some (.error ⟨"expression", some got⟩)
    | [] => some (.error ⟨"expression", none⟩)

/-- The parameter loop of the `fun` arm of
`Parser::parse_primary_expression`. -/
def parseFunParameters : Nat → List IdentifierAST → List Token →
    Option (ParseResult (List IdentifierAST × List Token))
  | 0, _, _ => none
  | fuel + 1, parameters, ts =>
    if peekIsSomeAndNotRaw (.Punctuation .CloseParent) ts then
      match consumeIdentifier ts with
      | .error e => some (.error e)
      | .ok (param, rest) =>
        if peekIsSomeAndRaw (.Punctuation .Comma) rest then parseFunParameters fuel (parameters ++ [param]) (rest.drop 1)
        else some (.ok (parameters ++ [param], rest))
    else some (.ok (parameters, ts))

/-- The `Parser::parse_expression`. -/
def parseExpression : Nat → Precedence → List Token →
    Option (ParseResult (Expression × List Token))
  | 0, _, _ => none
  | fuel + 1, precedence, ts =>
    match parsePrimary fuel ts with
    | none => none
    | some (.error e) => some (.error e)
    | some (.ok (left, rest)) => parseExpressionLoop fuel precedence left rest

/-- The `while precedence < peeked-precedence` loop of
`Parser::parse_expression`. In the `_ => break` arm the token has already
been taken by `self.lexer.next()`, hence it stays consumed. -/
def parseExpressionLoop : Nat → Precedence → Expression → List Token →
    Option (ParseResult (Expression × List Token))
  | 0, _, _, _ => none
  | fuel + 1, precedence, left, ts =>
    if precedence.lt (peekPrecedence ts) then
      match ts with
      | [] => some (.ok (left, []))
      | operator :: rest =>
        match operator.raw with
        | .Punctuation .Plus | .Punctuation .Minus
        | .Punctuation .Star | .Punctuation .Slash =>
          match parseExpression fuel operator.raw.precedence rest with
          | none => none
          | some (.error e) => some (.error e)
          | some (.ok (right, rest')) =>
            parseExpressionLoop fuel precedence
              (.Binary left right operator
                ⟨left.location.start, right.location.stop⟩) rest'
        | .Punctuation .PlusPlus | .Punctuation .MinusMinus =>
          parseExpressionLoop fuel precedence
            (.PostOp left operator
              ⟨left.location.start, operator.location.stop⟩) rest
        | .Punctuation .Dot =>
          match consumeIdentifier rest with
          | .error e => some (.error e)
          | .ok (right, rest') =>
            parseExpressionLoop fuel precedence
              (.FieldAccess left right
                ⟨left.location.start, right.location.stop⟩) rest'
        | .Punctuation .OpenParent =>
          match parseCallArguments fuel [] rest with
          | none => none
          | some (.error e) => some (.error e)
          | some (.ok (arguments, rest')) =>
            match consumeAndReturn (.Punctuation .CloseParent) rest' with
            | .error e => some (.error e)
            | .ok (closeParent, rest'') =>
              parseExpressionLoop fuel precedence
                (.Call left arguments
                  ⟨left.location.start, closeParent.location.stop⟩) rest''
        | _ => some (.ok (left, rest))
    else some (.ok (left, ts))

/-- The argument loop of the call arm of `Parser::parse_expression`. -/
def parseCallArguments : Nat → List Expression → List Token →
    Option (ParseResult (List Expression × List Token))
  | 0, _, _ => none
  | fuel + 1, arguments, ts =>
    if peekIsSomeAndNotRaw (.Punctuation .CloseParent) ts then
      match parseExpression fuel .Lowest ts with
      | none => none
      | some (.error e) => some (.error e)
      | some (.ok (arg, rest)) =>
        if peekIsSomeAndRaw (.Punctuation .Comma) rest then parseCallArguments fuel (arguments ++ [arg]) (rest.drop 1)
        else some (.ok (arguments ++ [arg], rest))
    else some (.ok (arguments, ts))

/-- The `Parser::parse_statement`. -/
def parseStatement : Nat → List Token →
    Option (ParseResult (Statement × List Token))
  | 0, _ => none
  | fuel + 1, ts =>
    match ts with
    | ⟨.Keyword .Continue, location⟩ :: rest =>
      match consumeAndReturn (.Punctuation .Semicolon) rest with
      | .error e => some (.error e)
      | .ok (semi, rest') =>
        some (.ok (.Continue ⟨location.start, semi.location.stop⟩, rest'))
    | ⟨.Keyword .Break, location⟩ :: rest =>
      match consumeAndReturn (.Punctuation .Semicolon) rest with
      | .error e => some (.error e)
      | .ok (semi, rest') =>
        some (.ok (.Break ⟨location.start, semi.location.stop⟩, rest'))
    | ⟨.Keyword .Return, location⟩ :: rest =>
      match parseExpression fuel .Lowest rest with
      | none => none
      | some (.error e) => some (.error e)
      | some (.ok (returnValue, rest')) =>
        match consumeAndReturn (.Punctuation .Semicolon) rest' with
        | .error e => some (.error e)
        | .ok (semi, rest'') =>
          some (.ok (.Return ⟨location.start, semi.location.stop⟩
            returnValue, rest''))
    | ⟨.Keyword .Var, location⟩ :: rest =>
      match consumeIdentifier rest with
      | .error e => some (.error e)
      | .ok (name, rest') =>
        match consume (.Punctuation .Eq) rest' with
        | .error e => some (.error e)
        | .ok rest'' =>
          match parseExpression fuel .Lowest rest'' with
          | none => none
          | some (.error e) => some (.error e)
          | some (.ok (value, rest3)) =>
            match consumeAndReturn (.Punctuation .Semicolon) rest3 with
            | .error e => some (.error e)
            | .ok (semi, rest4) =>
              some (.ok (.Var ⟨location.start, semi.location.stop⟩
                name value, rest4))
    | _ =>
      match parseExpression fuel .Lowest ts with
      | none => none
      | some (.error e) => some (.error e)
      | some (.ok (expression, rest)) =>
        match consumeAndReturn (.Punctuation .Semicolon) rest with
        | .error e => some (.error e)
        | .ok (semi, rest') =>
          some (.ok (.Expression
            ⟨expression.location.start, semi.location.stop⟩
            expression, rest'))

/-- The statement loop of `Parser::parse_statements_block`. -/
def parseStatementsLoop : Nat → List Statement → List Token →
    Option (ParseResult (List Statement × List Token))
  | 0, _, _ => none
  | fuel + 1, statements, ts =>
    if peekIsSomeAndNotRaw (.Punctuation .CloseBrace) ts then
      match parseStatement fuel ts with
      | none => none
      | some (.error e) => some (.error e)
      | some (.ok (s, rest)) =>
        parseStatementsLoop fuel (statements ++ [s]) rest
    else some (.ok (statements, ts))

/-- The `Parser::parse_statements_block`. -/
def parseStatementsBlock : Nat → List Token →
    Option (ParseResult (StatementsBlock × List Token))
  | 0, _ => none
  | fuel + 1, ts =>
    match consumeAndReturn (.Punctuation .OpenBrace) ts with
    | .error e => some (.error e)
    | .ok (openBrace, rest) =>
      match parseStatementsLoop fuel [] rest with
      | none => none
      | some (.error e) => some (.error e)
      | some (.ok (statements, rest')) =>
        match consumeAndReturn (.Punctuation .CloseBrace) rest' with
        | .error e => some (.error e)
        | .ok (closeBrace, rest'') =>
          some (.ok (⟨statements,
            ⟨openBrace.location.start, closeBrace.location.stop⟩⟩, rest''))

/-- The statement loop of `Parser::parse` (`while self.lexer.peek().is_some()`). -/
def parseModuleLoop : Nat → List Statement → List Token →
    Option (ParseResult (List Statement))
  | 0, _, _ => none
  | fuel + 1, statements, ts =>
    match ts with
    | [] => some (.ok statements)
    | _ :: _ =>
      match parseStatement fuel ts with
      | none => none
      | some (.error e) => some (.error e)
      | some (.ok (s, rest)) => parseModuleLoop fuel (statements ++ [s]) rest

end

/-- The `Parser::parse` over a token list. -/
def parseModule (fuel : Nat) (ts : List Token) :
    Option (ParseResult (List Statement)) :=
  parseModuleLoop fuel [] ts

/-- The `Parser::new(source).parse()`: lex the whole source (lexer fuel
`lexFuel`), then parse the produced token list (parser fuel `fuel`). -/
def parseSource (lexFuel fuel : Nat) (source : List Char) :
    Option (ParseResult (List Statement)) :=
  match lexRun lexFuel (Lexer.new source) with
  | none => none
  | some ts => parseModule fuel ts

/-- The `Parser::new(source).parse_expression(Precedence::Lowest)`: lex the
whole source, then parse one expression from the token list. -/
def parseExpressionSource (lexFuel fuel : Nat) (source : List Char) :
    Option (ParseResult (Expression × List Token)) :=
  match lexRun lexFuel (Lexer.new source) with
  | none => none
  | some ts => parseExpression fuel .Lowest ts

/-! ## The span invariant of parser-built nodes -/

mutual

/-- The location invariant the parser guarantees for every composite node
it builds: a `Binary`, `PostOp` or `FieldAccess` node spans from its left
child's start to its right child's (or operator's) end, a `Call` starts at
its callee's start, a function literal ends at its body block's end, and
the invariant holds recursively (through statements in function bodies).
The locations of `Call`'s closing `)`, of `Function`'s leading `fun` and
of the statement terminators are checked at the parser level, not here,
as those tokens are not part of the AST. -/
def Expression.spansChildren : Expression → Prop
  | .Literal _ => True
  | .Identifier _ => True
  | .Binary left right _ loc =>
    loc.start = left.location.start ∧ loc.stop = right.location.stop ∧
    left.spansChildren ∧ right.spansChildren
  | .PostOp left operator loc =>
    loc.start = left.location.start ∧ loc.stop = operator.location.stop ∧
    left.spansChildren
  | .PreOp _ _ _ => True
  | .Call callee arguments loc =>
    loc.start = callee.location.start ∧ callee.spansChildren ∧
    Expression.listSpansChildren arguments
  | .FieldAccess left right loc =>
    loc.start = left.location.start ∧ loc.stop = right.location.stop ∧
    left.spansChildren
  | .Function _ block loc =>
    loc.stop = block.location.stop ∧ block.spansChildren

def Expression.listSpansChildren : List Expression → Prop
  | [] => True
  | e :: es => e.spansChildren ∧ Expression.listSpansChildren es

def Statement.spansChildren : Statement → Prop
  | .Expression loc expression =>
    loc.start = expression.location.start ∧ expression.spansChildren
  | .Return _ returnValue => returnValue.spansChildren
  | .Break _ => True
  | .Continue _ => True
  | .Var _ _ value => value.spansChildren

def Statement.listSpansChildren : List Statement → Prop
  | [] => True
  | s :: ss => s.spansChildren ∧ Statement.listSpansChildren ss

def StatementsBlock.spansChildren : StatementsBlock → Prop
  | .mk statements _ => Statement.listSpansChildren statements

end

/-! Termination of the lexer loops: any iteration counter at least
`fuelLeft` computes the source's unbounded loops. -/

theorem isWhitespace_ne_nul {c : Char} (h : isWhitespace c) : c ≠ '\x00' := by
  intro h0
  rw [h0] at h
  exact absurd h (by decide)

theorem Lexer.fuelLeft_zero {l : Lexer} (h : l.fuelLeft = 0) :
    l.current = '\x00' := by
  unfold Lexer.fuelLeft at h
  by_contra hc
  rw [if_neg hc] at h
  omega

theorem Lexer.fuelLeft_advance (l : Lexer) (h : l.current ≠ '\x00') :
    l.advance.fuelLeft < l.fuelLeft := by
  unfold Lexer.fuelLeft Lexer.advance
  simp only [if_neg h]
  cases l.rest <;> simp <;> split <;> omega

theorem Lexer.skipWhitespacesGo_congr :
    ∀ (n m : Nat) (l : Lexer), l.fuelLeft ≤ n → l.fuelLeft ≤ m →
      Lexer.skipWhitespacesGo n l = Lexer.skipWhitespacesGo m l := by
  intro n
  induction n with
  | zero =>
    intro m l hn _
    have hc := Lexer.fuelLeft_zero (Nat.le_zero.mp hn)
    have hw : isWhitespace l.current = false := by rw [hc]; decide
    cases m with
    | zero => rfl
    | succ m => simp [Lexer.skipWhitespacesGo, hw]
  | succ n ih =>
    intro m l hn hm
    by_cases hw : isWhitespace l.current
    · have hc : l.current ≠ '\x00' := isWhitespace_ne_nul hw
      have h1 : 1 ≤ l.fuelLeft := by
        unfold Lexer.fuelLeft
        rw [if_neg hc]
        omega
      cases m with
      | zero => omega
      | succ m =>
        simp only [Lexer.skipWhitespacesGo, hw, if_true]
        exact ih m l.advance
          (by have := Lexer.fuelLeft_advance l hc; omega)
          (by have := Lexer.fuelLeft_advance l hc; omega)
    · cases m with
      | zero => simp [Lexer.skipWhitespacesGo, hw]
      | succ m => simp [Lexer.skipWhitespacesGo, hw]

theorem Lexer.advanceWhileGo_congr (f : Char → Char → Bool) :
    ∀ (n m : Nat) (l : Lexer), l.fuelLeft ≤ n → l.fuelLeft ≤ m →
      Lexer.advanceWhileGo f n l = Lexer.advanceWhileGo f m l := by
  intro n
  induction n with
  | zero =>
    intro m l hn _
    have hc := Lexer.fuelLeft_zero (Nat.le_zero.mp hn)
    have he : l.eof = true := by rw [Lexer.eof, hc]; decide
    cases m with
    | zero => rfl
    | succ m => simp [Lexer.advanceWhileGo, he]
  | succ n ih =>
    intro m l hn hm
    by_cases hg : (f l.current l.next && !l.eof) = true
    · have hc : l.current ≠ '\x00' := by
        intro h0
        have := (Bool.and_eq_true _ _).mp hg |>.2
        rw [Lexer.eof, h0] at this
        exact absurd this (by decide)
      have h1 : 1 ≤ l.fuelLeft := by
        unfold Lexer.fuelLeft
        rw [if_neg hc]
        omega
      cases m with
      | zero => omega
      | succ m =>
        simp only [Lexer.advanceWhileGo, hg, if_true]
        exact ih m l.advance
          (by have := Lexer.fuelLeft_advance l hc; omega)
          (by have := Lexer.fuelLeft_advance l hc; omega)
    · cases m with
      | zero => simp [Lexer.advanceWhileGo, hg]
      | succ m => simp [Lexer.advanceWhileGo, hg]

theorem exprListSpans_nil :
    Expression.listSpansChildren [] := by
  simp [Expression.listSpansChildren]

theorem stmtListSpans_nil :
    Statement.listSpansChildren [] := by
  simp [Statement.listSpansChildren]

theorem exprListSpans_singleton {e : Expression}
    (h : e.spansChildren) : Expression.listSpansChildren [e] := by
  simp only [Expression.listSpansChildren]
  exact ⟨h, trivial⟩

theorem stmtListSpans_singleton {s : Statement}
    (h : s.spansChildren) : Statement.listSpansChildren [s] := by
  simp only [Statement.listSpansChildren]
  exact ⟨h, trivial⟩

theorem exprListSpans_append {xs ys : List Expression}
    (hx : Expression.listSpansChildren xs)
    (hy : Expression.listSpansChildren ys) :
    Expression.listSpansChildren (xs ++ ys) := by
  induction xs with
  | nil => simpa using hy
  | cons x xs ih =>
    simp only [Expression.listSpansChildren] at hx ⊢
    exact ⟨hx.1, ih hx.2⟩

theorem stmtListSpans_append {xs ys : List Statement}
    (hx : Statement.listSpansChildren xs)
    (hy : Statement.listSpansChildren ys) :
    Statement.listSpansChildren (xs ++ ys) := by
  induction xs with
  | nil => simpa using hy
  | cons x xs ih =>
    simp only [Statement.listSpansChildren] at hx ⊢
    exact ⟨hx.1, ih hx.2⟩

/-- Every expression (and statement, and block) any of the parse functions
returns satisfies the span invariant, whatever the fuel and the token
list. Proved by simultaneous induction on the fuel. -/
theorem parseSpans : ∀ n : Nat,
    (∀ ts e r, parsePrimary n ts = some (.ok (e, r)) →
      e.spansChildren) ∧
    (∀ prec ts e r, parseExpression n prec ts = some (.ok (e, r)) →
      e.spansChildren) ∧
    (∀ prec left ts e r, left.spansChildren →
      parseExpressionLoop n prec left ts = some (.ok (e, r)) →
      e.spansChildren) ∧
    (∀ acc ts args r, Expression.listSpansChildren acc →
      parseCallArguments n acc ts = some (.ok (args, r)) →
      Expression.listSpansChildren args) ∧
    (∀ ts s r, parseStatement n ts = some (.ok (s, r)) →
      s.spansChildren) ∧
    (∀ acc ts ss r, Statement.listSpansChildren acc →
      parseStatementsLoop n acc ts = some (.ok (ss, r)) →
      Statement.listSpansChildren ss) ∧
    (∀ ts b r, parseStatementsBlock n ts = some (.ok (b, r)) →
      b.spansChildren) := by
  intro n
  induction n with
  | zero =>
    refine ⟨?_, ?_, ?_, ?_, ?_, ?_, ?_⟩
    · intro _ _ _ h; simp [parsePrimary] at h
    · intro _ _ _ _ h; simp [parseExpression] at h
    · intro _ _ _ _ _ _ h; simp [parseExpressionLoop] at h
    · intro _ _ _ _ _ h; simp [parseCallArguments] at h
    · intro _ _ _ h; simp [parseStatement] at h
    · intro _ _ _ _ _ h; simp [parseStatementsLoop] at h
    · intro _ _ _ h; simp [parseStatementsBlock] at h
  | succ n ih =>
    obtain ⟨ihP, ihE, ihL, ihA, ihS, ihSL, ihB⟩ := ih
    refine ⟨?_, ?_, ?_, ?_, ?_, ?_, ?_⟩
    · -- parsePrimary
      intro ts e r h
      simp only [parsePrimary] at h
      split at h
      · -- parenthesized: the inner expression is returned unchanged
        split at h
        · simp at h
        · simp at h
        · rename_i inner rest' heq
          split at h
          · simp at h
          · simp only [Option.some.injEq, Except.ok.injEq,
              Prod.mk.injEq] at h
            obtain ⟨he, _⟩ := h
            subst he
            exact ihE _ _ _ _ heq
      · -- identifier
        simp only [Option.some.injEq, Except.ok.injEq, Prod.mk.injEq] at h
        obtain ⟨he, _⟩ := h
        subst he
        simp [Expression.spansChildren]
      · -- integer literal
        simp only [Option.some.injEq, Except.ok.injEq, Prod.mk.injEq] at h
        obtain ⟨he, _⟩ := h
        subst he
        simp [Expression.spansChildren]
      · -- bool literal
        simp only [Option.some.injEq, Except.ok.injEq, Prod.mk.injEq] at h
        obtain ⟨he, _⟩ := h
        subst he
        simp [Expression.spansChildren]
      · -- string literal
        simp only [Option.some.injEq, Except.ok.injEq, Prod.mk.injEq] at h
        obtain ⟨he, _⟩ := h
        subst he
        simp [Expression.spansChildren]
      · -- char literal
        simp only [Option.some.injEq, Except.ok.injEq, Prod.mk.injEq] at h
        obtain ⟨he, _⟩ := h
        subst he
        simp [Expression.spansChildren]
      · -- function literal
        split at h
        · simp at h
        · split at h
          · simp at h
          · simp at h
          · rename_i parameters rest2 heqParams
            split at h
            · simp at h
            · split at h
              · simp at h
              · simp at h
              · rename_i block rest4 heqBlock
                simp only [Option.some.injEq, Except.ok.injEq,
                  Prod.mk.injEq] at h
                obtain ⟨he, _⟩ := h
                subst he
                simp only [Expression.spansChildren]
                exact ⟨trivial, ihB _ _ _ heqBlock⟩
      · simp at h
      · simp at h
    · -- parseExpression
      intro prec ts e r h
      simp only [parseExpression] at h
      split at h
      · simp at h
      · simp at h
      · rename_i left rest heq
        exact ihL _ _ _ _ _ (ihP _ _ _ heq) h
    · -- parseExpressionLoop
      intro prec left ts e r hl h
      simp only [parseExpressionLoop] at h
      split at h
      · split at h
        · -- empty stream: break
          simp only [Option.some.injEq, Except.ok.injEq, Prod.mk.injEq] at h
          obtain ⟨he, _⟩ := h
          subst he
          exact hl
        · -- one token taken: dispatch on the operator
          rename_i operator rest hlt
          split at h
          · -- plus
            split at h
            · simp at h
            · simp at h
            · rename_i right rest' heq
              have hleft :
                  (Expression.Binary left right operator
                    ⟨left.location.start, right.location.stop⟩).spansChildren := by
                simp only [Expression.spansChildren]
                exact ⟨trivial, trivial, hl, ihE _ _ _ _ heq⟩
              exact ihL _ _ _ _ _ hleft h
          · -- minus
            split at h
            · simp at h
            · simp at h
            · rename_i right rest' heq
              have hleft :
                  (Expression.Binary left right operator
                    ⟨left.location.start, right.location.stop⟩).spansChildren := by
                simp only [Expression.spansChildren]
                exact ⟨trivial, trivial, hl, ihE _ _ _ _ heq⟩
              exact ihL _ _ _ _ _ hleft h
          · -- star
            split at h
            · simp at h
            · simp at h
            · rename_i right rest' heq
              have hleft :
                  (Expression.Binary left right operator
                    ⟨left.location.start, right.location.stop⟩).spansChildren := by
                simp only [Expression.spansChildren]
                exact ⟨trivial, trivial, hl, ihE _ _ _ _ heq⟩
              exact ihL _ _ _ _ _ hleft h
          · -- slash
            split at h
            · simp at h
            · simp at h
            · rename_i right rest' heq
              have hleft :
                  (Expression.Binary left right operator
                    ⟨left.location.start, right.location.stop⟩).spansChildren := by
                simp only [Expression.spansChildren]
                exact ⟨trivial, trivial, hl, ihE _ _ _ _ heq⟩
              exact ihL _ _ _ _ _ hleft h
          · -- plus-plus
            have hleft :
                (Expression.PostOp left operator
                  ⟨left.location.start, operator.location.stop⟩).spansChildren := by
              simp only [Expression.spansChildren]
              exact ⟨trivial, trivial, hl⟩
            exact ihL _ _ _ _ _ hleft h
          · -- minus-minus
            have hleft :
                (Expression.PostOp left operator
                  ⟨left.location.start, operator.location.stop⟩).spansChildren := by
              simp only [Expression.spansChildren]
              exact ⟨trivial, trivial, hl⟩
            exact ihL _ _ _ _ _ hleft h
          · -- dot
            split at h
            · simp at h
            · rename_i right rest' heqI
              have hleft :
                  (Expression.FieldAccess left right
                    ⟨left.location.start, right.location.stop⟩).spansChildren := by
                simp only [Expression.spansChildren]
                exact ⟨trivial, trivial, hl⟩
              exact ihL _ _ _ _ _ hleft h
          · -- call
            split at h
            · simp at h
            · simp at h
            · rename_i arguments rest' heqArgs
              split at h
              · simp at h
              · rename_i closeParent rest2 heqClose
                have hleft :
                    (Expression.Call left arguments
                      ⟨left.location.start,
                        closeParent.location.stop⟩).spansChildren := by
                  simp only [Expression.spansChildren]
                  exact ⟨trivial, hl,
                    ihA _ _ _ _ exprListSpans_nil heqArgs⟩
                exact ihL _ _ _ _ _ hleft h
          · -- any other taken token: break
            simp only [Option.some.injEq, Except.ok.injEq,
              Prod.mk.injEq] at h
            obtain ⟨he, _⟩ := h
            subst he
            exact hl
      · -- precedence not exceeded: loop exits
        simp only [Option.some.injEq, Except.ok.injEq, Prod.mk.injEq] at h
        obtain ⟨he, _⟩ := h
        subst he
        exact hl
    · -- parseCallArguments
      intro acc ts args r hacc h
      simp only [parseCallArguments] at h
      split at h
      · split at h
        · simp at h
        · simp at h
        · rename_i arg rest heq
          split at h
          · exact ihA _ _ _ _
              (exprListSpans_append hacc
                (exprListSpans_singleton
                  (ihE _ _ _ _ heq))) h
          · simp only [Option.some.injEq, Except.ok.injEq,
              Prod.mk.injEq] at h
            obtain ⟨he, _⟩ := h
            subst he
            exact exprListSpans_append hacc
              (exprListSpans_singleton (ihE _ _ _ _ heq))
      · simp only [Option.some.injEq, Except.ok.injEq, Prod.mk.injEq] at h
        obtain ⟨he, _⟩ := h
        subst he
        exact hacc
    · -- parseStatement
      intro ts s r h
      simp only [parseStatement] at h
      split at h
      · -- continue
        split at h
        · simp at h
        · simp only [Option.some.injEq, Except.ok.injEq, Prod.mk.injEq] at h
          obtain ⟨hs, _⟩ := h
          subst hs
          simp [Statement.spansChildren]
      · -- break
        split at h
        · simp at h
        · simp only [Option.some.injEq, Except.ok.injEq, Prod.mk.injEq] at h
          obtain ⟨hs, _⟩ := h
          subst hs
          simp [Statement.spansChildren]
      · -- return
        split at h
        · simp at h
        · simp at h
        · rename_i returnValue rest' heq
          split at h
          · simp at h
          · simp only [Option.some.injEq, Except.ok.injEq,
              Prod.mk.injEq] at h
            obtain ⟨hs, _⟩ := h
            subst hs
            simp only [Statement.spansChildren]
            exact ihE _ _ _ _ heq
      · -- var
        split at h
        · simp at h
        · split at h
          · simp at h
          · split at h
            · simp at h
            · simp at h
            · rename_i value rest3 heq
              split at h
              · simp at h
              · simp only [Option.some.injEq, Except.ok.injEq,
                  Prod.mk.injEq] at h
                obtain ⟨hs, _⟩ := h
                subst hs
                simp only [Statement.spansChildren]
                exact ihE _ _ _ _ heq
      · -- expression statement
        split at h
        · simp at h
        · simp at h
        · rename_i expression rest heq
          split at h
          · simp at h
          · simp only [Option.some.injEq, Except.ok.injEq,
              Prod.mk.injEq] at h
            obtain ⟨hs, _⟩ := h
            subst hs
            simp only [Statement.spansChildren]
            exact ⟨trivial, ihE _ _ _ _ heq⟩
    · -- parseStatementsLoop
      intro acc ts ss r hacc h
      simp only [parseStatementsLoop] at h
      split at h
      · split at h
        · simp at h
        · simp at h
        · rename_i s' rest heq
          exact ihSL _ _ _ _
            (stmtListSpans_append hacc
              (stmtListSpans_singleton (ihS _ _ _ heq))) h
      · simp only [Option.some.injEq, Except.ok.injEq, Prod.mk.injEq] at h
        obtain ⟨hs, _⟩ := h
        subst hs
        exact hacc
    · -- parseStatementsBlock
      intro ts b r h
      simp only [parseStatementsBlock] at h
      split at h
      · simp at h
      · split at h
        · simp at h
        · simp at h
        · rename_i statements rest' heqLoop
          split at h
          · simp at h
          · simp only [Option.some.injEq, Except.ok.injEq,
              Prod.mk.injEq] at h
            obtain ⟨hb, _⟩ := h
            subst hb
            simp only [StatementsBlock.spansChildren]
            exact ihSL _ _ _ _ stmtListSpans_nil heqLoop

/-! ## The lexer walks `stateAt` positions -/

theorem stateAt_source (s : List Char) (p : Nat) :
    (stateAt s p).source = s := rfl

theorem stateAt_current (s : List Char) (p : Nat) :
    (stateAt s p).current = sentinelNth s p := rfl

theorem stateAt_next (s : List Char) (p : Nat) :
    (stateAt s p).next = sentinelNth s (p + 1) := rfl

theorem stateAt_offset (s : List Char) (p : Nat) :
    (stateAt s p).offset = offsetAt s p := rfl

theorem new_eq_stateAt (s : List Char) : Lexer.new s = stateAt s 0 := by
  simp [Lexer.new, stateAt, sentinelNth, offsetAt]

theorem sentinelNth_eq_nul_of_le {s : List Char} {p : Nat}
    (h : s.length ≤ p) : sentinelNth s p = '\x00' := by
  unfold sentinelNth
  rw [List.drop_eq_nil_of_le h]
  rfl

theorem lt_of_sentinelNth_ne_nul {s : List Char} {p : Nat}
    (h : sentinelNth s p ≠ '\x00') : p < s.length := by
  by_contra hp
  push_neg at hp
  exact h (sentinelNth_eq_nul_of_le hp)

theorem offsetAt_succ {s : List Char} {p : Nat} (h : p < s.length) :
    offsetAt s (p + 1) = offsetAt s p + (sentinelNth s p).utf8Size := by
  induction s generalizing p with
  | nil => simp at h
  | cons c cs ih =>
    cases p with
    | zero => simp [offsetAt, sentinelNth]
    | succ q =>
      have hq : q < cs.length := by simpa using h
      have hrec := ih hq
      simp only [offsetAt, sentinelNth, List.take_succ_cons, List.map_cons,
        List.sum_cons, List.drop_succ_cons] at hrec ⊢
      omega

theorem advance_stateAt {s : List Char} {p : Nat} (h : p < s.length) :
    (stateAt s p).advance = stateAt s (p + 1) := by
  have h2 : p + 1 + 1 = p + 2 := by omega
  have h3 : p + 1 + 2 = p + 3 := by omega
  have h4 : p + 2 + 1 = p + 3 := by omega
  simp [Lexer.advance, stateAt, sentinelNth, List.tail_drop,
    offsetAt_succ h, h2, h3, h4]

theorem advanceTwice_stateAt {s : List Char} {p : Nat} (h1 : p < s.length)
    (h2 : sentinelNth s (p + 1) ≠ '\x00') :
    (stateAt s p).advance.advance = stateAt s (p + 2) := by
  rw [advance_stateAt h1, advance_stateAt (lt_of_sentinelNth_ne_nul h2)]

theorem wsEndGo_congr (s : List Char) :
    ∀ n m p, s.length - p ≤ n → s.length - p ≤ m →
      wsEndGo s n p = wsEndGo s m p := by
  intro n
  induction n with
  | zero =>
    intro m p hn _
    have hnul : sentinelNth s p = '\x00' :=
      sentinelNth_eq_nul_of_le (by omega)
    have hw : isWhitespace (sentinelNth s p) = false := by rw [hnul]; decide
    cases m with
    | zero => rfl
    | succ m => simp [wsEndGo, hw]
  | succ n ih =>
    intro m p hn hm
    by_cases hw : isWhitespace (sentinelNth s p)
    · have hlt : p < s.length :=
        lt_of_sentinelNth_ne_nul (isWhitespace_ne_nul hw)
      cases m with
      | zero => omega
      | succ m =>
        simp only [wsEndGo, hw, if_true]
        exact ih m (p + 1) (by omega) (by omega)
    · cases m with
      | zero => simp [wsEndGo, hw]
      | succ m => simp [wsEndGo, hw]

theorem wsEnd_step {s : List Char} {p : Nat}
    (hw : isWhitespace (sentinelNth s p)) : wsEnd s p = wsEnd s (p + 1) := by
  have hlt : p < s.length :=
    lt_of_sentinelNth_ne_nul (isWhitespace_ne_nul hw)
  unfold wsEnd
  have h1 : s.length - p = (s.length - (p + 1)) + 1 := by omega
  rw [h1]
  simp [wsEndGo, hw]

theorem wsEnd_stop {s : List Char} {p : Nat}
    (hw : ¬ isWhitespace (sentinelNth s p)) : wsEnd s p = p := by
  unfold wsEnd
  cases s.length - p with
  | zero => rfl
  | succ k => simp [wsEndGo, hw]

theorem wsEnd_le (s : List Char) :
    ∀ n p, s.length - p ≤ n → p ≤ s.length → wsEnd s p ≤ s.length := by
  intro n
  induction n with
  | zero =>
    intro p _ hp
    have hnul : sentinelNth s p = '\x00' :=
      sentinelNth_eq_nul_of_le (by omega)
    rw [wsEnd_stop (by rw [hnul]; decide)]
    exact hp
  | succ n ih =>
    intro p hn hp
    by_cases hw : isWhitespace (sentinelNth s p)
    · have hlt : p < s.length :=
        lt_of_sentinelNth_ne_nul (isWhitespace_ne_nul hw)
      rw [wsEnd_step hw]
      exact ih (p + 1) (by omega) (by omega)
    · rw [wsEnd_stop hw]
      exact hp

theorem scanEndGo_congr (g : Char → Bool) (s : List Char) :
    ∀ n m p, s.length - p ≤ n → s.length - p ≤ m →
      scanEndGo g s n p = scanEndGo g s m p := by
  intro n
  induction n with
  | zero =>
    intro m p hn _
    have hnul : sentinelNth s p = '\x00' :=
      sentinelNth_eq_nul_of_le (by omega)
    have hg : (g (sentinelNth s p) &&
        !(decide (sentinelNth s p = '\x00'))) = false := by
      rw [hnul]
      simp
    cases m with
    | zero => rfl
    | succ m => simp [scanEndGo, hg]
  | succ n ih =>
    intro m p hn hm
    by_cases hg : (g (sentinelNth s p) &&
        !(decide (sentinelNth s p = '\x00'))) = true
    · have hnul : sentinelNth s p ≠ '\x00' := by
        have := (Bool.and_eq_true _ _).mp hg |>.2
        simpa using this
      have hlt : p < s.length := lt_of_sentinelNth_ne_nul hnul
      cases m with
      | zero => omega
      | succ m =>
        simp only [scanEndGo, hg, if_true]
        exact ih m (p + 1) (by omega) (by omega)
    · cases m with
      | zero => simp [scanEndGo, hg]
      | succ m => simp [scanEndGo, hg]

theorem scanEnd_step {g : Char → Bool} {s : List Char} {p : Nat}
    (hg : (g (sentinelNth s p) && !(decide (sentinelNth s p = '\x00'))) = true) :
    scanEnd g s p = scanEnd g s (p + 1) := by
  have hnul : sentinelNth s p ≠ '\x00' := by
    have := (Bool.and_eq_true _ _).mp hg |>.2
    simpa using this
  have hlt : p < s.length := lt_of_sentinelNth_ne_nul hnul
  unfold scanEnd
  have h1 : s.length - p = (s.length - (p + 1)) + 1 := by omega
  rw [h1]
  simp [scanEndGo, hg]

theorem scanEnd_stop {g : Char → Bool} {s : List Char} {p : Nat}
    (hg : (g (sentinelNth s p) && !(decide (sentinelNth s p = '\x00'))) = false) :
    scanEnd g s p = p := by
  unfold scanEnd
  cases s.length - p with
  | zero => rfl
  | succ k => simp [scanEndGo, hg]

theorem scanEnd_le (g : Char → Bool) (s : List Char) :
    ∀ n p, s.length - p ≤ n → p ≤ s.length → scanEnd g s p ≤ s.length := by
  intro n
  induction n with
  | zero =>
    intro p _ hp
    have hnul : sentinelNth s p = '\x00' :=
      sentinelNth_eq_nul_of_le (by omega)
    rw [scanEnd_stop (by rw [hnul]; simp)]
    exact hp
  | succ n ih =>
    intro p hn hp
    by_cases hg : (g (sentinelNth s p) &&
        !(decide (sentinelNth s p = '\x00'))) = true
    · have hnul : sentinelNth s p ≠ '\x00' := by
        have := (Bool.and_eq_true _ _).mp hg |>.2
        simpa using this
      have hlt : p < s.length := lt_of_sentinelNth_ne_nul hnul
      rw [scanEnd_step hg]
      exact ih (p + 1) (by omega) (by omega)
    · rw [scanEnd_stop (by simpa using hg)]
      exact hp

theorem skipWhitespacesGo_stateAt (s : List Char) :
    ∀ n p, (stateAt s p).fuelLeft ≤ n →
      Lexer.skipWhitespacesGo n (stateAt s p) = stateAt s (wsEnd s p) := by
  intro n
  induction n with
  | zero =>
    intro p hn
    have hcur : (stateAt s p).current = '\x00' :=
      Lexer.fuelLeft_zero (Nat.le_zero.mp hn)
    rw [stateAt_current] at hcur
    rw [wsEnd_stop (by rw [hcur]; decide)]
    rfl
  | succ n ih =>
    intro p hn
    by_cases hw : isWhitespace (sentinelNth s p)
    · have hlt : p < s.length :=
        lt_of_sentinelNth_ne_nul (isWhitespace_ne_nul hw)
      have hcur : (stateAt s p).current ≠ '\x00' := by
        rw [stateAt_current]
        exact isWhitespace_ne_nul hw
      have hfuel := Lexer.fuelLeft_advance (stateAt s p) hcur
      rw [advance_stateAt hlt] at hfuel
      simp only [Lexer.skipWhitespacesGo, stateAt_current, hw, if_true]
      rw [advance_stateAt hlt, wsEnd_step hw]
      exact ih (p + 1) (by omega)
    · rw [wsEnd_stop hw]
      simp [Lexer.skipWhitespacesGo, stateAt_current, hw]

theorem skipWhitespaces_stateAt (s : List Char) (p : Nat) :
    (stateAt s p).skipWhitespaces = stateAt s (wsEnd s p) :=
  skipWhitespacesGo_stateAt s _ p (Nat.le_refl _)

theorem advanceWhileGo_stateAt (f : Char → Char → Bool) (g : Char → Bool)
    (hfg : ∀ c d, f c d = g c) (s : List Char) :
    ∀ n p, (stateAt s p).fuelLeft ≤ n →
      Lexer.advanceWhileGo f n (stateAt s p) = stateAt s (scanEnd g s p) := by
  intro n
  induction n with
  | zero =>
    intro p hn
    have hcur : (stateAt s p).current = '\x00' :=
      Lexer.fuelLeft_zero (Nat.le_zero.mp hn)
    rw [stateAt_current] at hcur
    rw [scanEnd_stop (by rw [hcur]; simp)]
    rfl
  | succ n ih =>
    intro p hn
    have hguard : (f (stateAt s p).current (stateAt s p).next &&
        !(stateAt s p).eof) =
        (g (sentinelNth s p) && !(decide (sentinelNth s p = '\x00'))) := by
      rw [stateAt_current, stateAt_next, hfg]
      rfl
    by_cases hg : (g (sentinelNth s p) &&
        !(decide (sentinelNth s p = '\x00'))) = true
    · have hnul : sentinelNth s p ≠ '\x00' := by
        have := (Bool.and_eq_true _ _).mp hg |>.2
        simpa using this
      have hlt : p < s.length := lt_of_sentinelNth_ne_nul hnul
      have hcur : (stateAt s p).current ≠ '\x00' := by
        rw [stateAt_current]
        exact hnul
      have hfuel := Lexer.fuelLeft_advance (stateAt s p) hcur
      rw [advance_stateAt hlt] at hfuel
      simp only [Lexer.advanceWhileGo, hguard, hg, if_true]
      rw [advance_stateAt hlt, scanEnd_step hg]
      exact ih (p + 1) (by omega)
    · rw [scanEnd_stop (by simpa using hg)]
      simp [Lexer.advanceWhileGo, hguard, hg]

theorem advanceWhile_stateAt (f : Char → Char → Bool) (g : Char → Bool)
    (hfg : ∀ c d, f c d = g c) (s : List Char) (p : Nat) :
    (stateAt s p).advanceWhile f = stateAt s (scanEnd g s p) :=
  advanceWhileGo_stateAt f g hfg s _ p (Nat.le_refl _)

theorem advanceWith_eq (s : List Char) (q : Nat) (raw : RawToken)
    (hq : q < s.length) :
    (stateAt s q).advanceWith raw =
      ((⟨raw, ⟨offsetAt s q, offsetAt s q + 1⟩⟩ : Token), stateAt s (q + 1)) := by
  unfold Lexer.advanceWith Lexer.currentCharLocation
  rw [advance_stateAt hq]
  rfl

theorem advanceTwiceWith_eq (s : List Char) (q : Nat) (raw : RawToken)
    (hq : q < s.length) (hd : sentinelNth s (q + 1) ≠ '\x00') :
    (stateAt s q).advanceTwiceWith raw =
      ((⟨raw, ⟨offsetAt s q, offsetAt s q + 2⟩⟩ : Token), stateAt s (q + 2)) := by
  unfold Lexer.advanceTwiceWith
  rw [advanceTwice_stateAt hq hd]
  rfl

/-- The dispatch of `Lexer::next` from position `q` produces the
index-level token of `stepAt` and lands at its index. -/
theorem dispatch_stateAt (s : List Char) (q : Nat) (hq : q < s.length) :
    (stateAt s q).dispatch = ((stepAt s q).1, stateAt s (stepAt s q).2) := by
  unfold Lexer.dispatch stepAt
  simp only [stateAt_current, stateAt_next]
  split
  · next hc hd => exact advanceTwiceWith_eq s q _ hq (by rw [hd]; decide)
  · next hc hd => exact advanceTwiceWith_eq s q _ hq (by rw [hd]; decide)
  · next hc hn1 hn2 => exact advanceWith_eq s q _ hq
  · next hc hd => exact advanceTwiceWith_eq s q _ hq (by rw [hd]; decide)
  · next hc hd => exact advanceTwiceWith_eq s q _ hq (by rw [hd]; decide)
  · next hc hn1 hn2 => exact advanceWith_eq s q _ hq
  · next hc hd => exact advanceTwiceWith_eq s q _ hq (by rw [hd]; decide)
  · next hc hd => exact advanceTwiceWith_eq s q _ hq (by rw [hd]; decide)
  · next hc hd => exact advanceWith_eq s q _ hq
  · next hc hn1 hn2 => exact advanceWith_eq s q _ hq
  · next hc hn1 => exact advanceWith_eq s q _ hq
  · next hc => exact advanceWith_eq s q _ hq
  · next hc => exact advanceWith_eq s q _ hq
  · next hc => exact advanceWith_eq s q _ hq
  · next hc => exact advanceWith_eq s q _ hq
  · next hc => exact advanceWith_eq s q _ hq
  · next hc => exact advanceWith_eq s q _ hq
  · next hc => exact advanceWith_eq s q _ hq
  · next hc => exact advanceWith_eq s q _ hq
  · next hc => exact advanceWith_eq s q _ hq
  · next hc =>
      simp only [Lexer.nextStringToken]
      rw [advanceWhile_stateAt _ (fun current => decide (current ≠ '\"'))
        (fun c d => rfl)]
      simp [stateAt_source, stateAt_offset, Lexer.locationFrom]
  · split
    · -- identifier or keyword
      simp only [Lexer.nextIdentifierOrKeywordToken]
      rw [advanceWhile_stateAt _ isIdContinue (fun c d => rfl)]
      simp only [stateAt_source, stateAt_offset]
      cases hkw : keywordLookup (String.mk (byteSlice s (offsetAt s q)
          (offsetAt s (scanEnd isIdContinue s q)))) with
      | none => simp [hkw, Lexer.locationFrom, stateAt_offset]
      | some keyword => simp [hkw, Lexer.locationFrom, stateAt_offset]
    · split
      · -- number
        simp only [Lexer.nextNumberToken]
        rw [advanceWhile_stateAt _ Char.isDigit (fun c d => rfl)]
        simp [stateAt_source, stateAt_offset, Lexer.locationFrom]
      · -- unexpected character: the state is unchanged
        rfl

theorem stepAt_le (s : List Char) (q : Nat) (hq : q < s.length) :
    (stepAt s q).2 ≤ s.length := by
  have hone : q + 1 ≤ s.length := hq
  have hscan : ∀ g : Char → Bool, scanEnd g s q ≤ s.length := fun g =>
    scanEnd_le g s (s.length - q) q (Nat.le_refl _) (Nat.le_of_lt hq)
  unfold stepAt
  split
  · next hc hd =>
      have := lt_of_sentinelNth_ne_nul
        (show sentinelNth s (q + 1) ≠ '\x00' by rw [hd]; decide)
      omega
  · next hc hd =>
      have := lt_of_sentinelNth_ne_nul
        (show sentinelNth s (q + 1) ≠ '\x00' by rw [hd]; decide)
      omega
  · exact hone
  · next hc hd =>
      have := lt_of_sentinelNth_ne_nul
        (show sentinelNth s (q + 1) ≠ '\x00' by rw [hd]; decide)
      omega
  · next hc hd =>
      have := lt_of_sentinelNth_ne_nul
        (show sentinelNth s (q + 1) ≠ '\x00' by rw [hd]; decide)
      omega
  · exact hone
  · next hc hd =>
      have := lt_of_sentinelNth_ne_nul
        (show sentinelNth s (q + 1) ≠ '\x00' by rw [hd]; decide)
      omega
  · next hc hd =>
      have := lt_of_sentinelNth_ne_nul
        (show sentinelNth s (q + 1) ≠ '\x00' by rw [hd]; decide)
      omega
  · exact hone
  · exact hone
  · exact hone
  · exact hone
  · exact hone
  · exact hone
  · exact hone
  · exact hone
  · exact hone
  · exact hone
  · exact hone
  · exact hone
  · exact hscan _
  · split
    · split
      · exact hscan _
      · exact hscan _
    · split
      · exact hscan _
      · exact Nat.le_of_lt hq

/-- The `Lexer::next` from position `p`: skip whitespace to `wsEnd s p`, stop
at the sentinel, otherwise emit the `stepAt` token. -/
theorem nextToken_stateAt (s : List Char) (p : Nat) :
    (stateAt s p).nextToken =
      if sentinelNth s (wsEnd s p) = '\x00' then none
      else some ((stepAt s (wsEnd s p)).1,
        stateAt s ((stepAt s (wsEnd s p)).2)) := by
  simp only [Lexer.nextToken]
  rw [skipWhitespaces_stateAt]
  by_cases hnul : sentinelNth s (wsEnd s p) = '\x00'
  · simp [Lexer.eof, stateAt_current, hnul]
  · have hlt : wsEnd s p < s.length := lt_of_sentinelNth_ne_nul hnul
    simp [Lexer.eof, stateAt_current, hnul, dispatch_stateAt s _ hlt]

/-! ## Truncation at the first NUL

Everything the lexer observes while its position is within `s1` is the
same over `s1 ++ '\x00' :: s2` and over `s1` alone: the character read at
the end of `s1` is the NUL itself in the former and the `'\0'` sentinel in
the latter — the same value. -/

theorem sentinelNth_agree {s1 : List Char} (s2 : List Char) :
    ∀ p, p ≤ s1.length →
      sentinelNth (s1 ++ '\x00' :: s2) p = sentinelNth s1 p := by
  induction s1 with
  | nil =>
    intro p hp
    have hp0 : p = 0 := by simpa using hp
    subst hp0
    rfl
  | cons c cs ih =>
    intro p hp
    cases p with
    | zero => rfl
    | succ q => exact ih q (by simpa using hp)

theorem offsetAt_agree {s1 : List Char} (s2 : List Char) :
    ∀ p, p ≤ s1.length →
      offsetAt (s1 ++ '\x00' :: s2) p = offsetAt s1 p := by
  induction s1 with
  | nil =>
    intro p hp
    have hp0 : p = 0 := by simpa using hp
    subst hp0
    rfl
  | cons c cs ih =>
    intro p hp
    cases p with
    | zero => rfl
    | succ q =>
      simp only [List.cons_append, offsetAt, List.take_succ_cons,
        List.map_cons, List.sum_cons]
      have := ih q (by simpa using hp)
      simp only [offsetAt] at this
      omega

theorem byteSliceAux_nil_of_le (t : List Char) :
    ∀ pos a b, b ≤ pos → byteSliceAux t pos a b = [] := by
  induction t with
  | nil => intros; rfl
  | cons c cs ih =>
    intro pos a b hb
    simp only [byteSliceAux]
    rw [if_neg (by omega)]
    exact ih _ _ _ (by omega)

theorem byteSliceAux_agree (s1 t : List Char) :
    ∀ pos a b, b ≤ pos + byteLen s1 →
      byteSliceAux (s1 ++ t) pos a b = byteSliceAux s1 pos a b := by
  induction s1 with
  | nil =>
    intro pos a b hb
    simp only [byteLen, List.map_nil, List.sum_nil, Nat.add_zero] at hb
    simp only [List.nil_append, byteSliceAux]
    exact byteSliceAux_nil_of_le t pos a b hb
  | cons c cs ih =>
    intro pos a b hb
    simp only [byteLen, List.map_cons, List.sum_cons] at hb
    simp only [List.cons_append, byteSliceAux, List.append_eq]
    rw [ih (pos + c.utf8Size) a b (by simp only [byteLen]; omega)]

theorem byteSlice_agree {s1 : List Char} (t : List Char) {a b : Nat}
    (hb : b ≤ byteLen s1) :
    byteSlice (s1 ++ t) a b = byteSlice s1 a b :=
  byteSliceAux_agree s1 t 0 a b (by omega)

theorem offsetAt_le_byteLen (s : List Char) :
    ∀ p, offsetAt s p ≤ byteLen s := by
  induction s with
  | nil => intro p; simp [offsetAt, byteLen]
  | cons c cs ih =>
    intro p
    cases p with
    | zero => simp [offsetAt, byteLen]
    | succ q =>
      simp only [offsetAt, byteLen, List.take_succ_cons, List.map_cons,
        List.sum_cons]
      have := ih q
      simp only [offsetAt, byteLen] at this
      omega

theorem wsEndGo_agree {s1 : List Char} (s2 : List Char) :
    ∀ n p, p ≤ s1.length →
      wsEndGo (s1 ++ '\x00' :: s2) n p = wsEndGo s1 n p := by
  intro n
  induction n with
  | zero => intros; rfl
  | succ n ih =>
    intro p hp
    simp only [wsEndGo, sentinelNth_agree s2 p hp]
    by_cases hw : isWhitespace (sentinelNth s1 p)
    · have hlt : p < s1.length :=
        lt_of_sentinelNth_ne_nul (isWhitespace_ne_nul hw)
      simp only [hw, if_true]
      exact ih (p + 1) (by omega)
    · simp [hw]

theorem wsEnd_agree {s1 : List Char} (s2 : List Char) {p : Nat}
    (hp : p ≤ s1.length) :
    wsEnd (s1 ++ '\x00' :: s2) p = wsEnd s1 p := by
  unfold wsEnd
  rw [wsEndGo_agree s2 _ p hp]
  apply wsEndGo_congr s1 _ _ p _ (Nat.le_refl _)
  simp only [List.length_append, List.length_cons]
  omega

theorem scanEndGo_agree (g : Char → Bool) {s1 : List Char} (s2 : List Char) :
    ∀ n p, p ≤ s1.length →
      scanEndGo g (s1 ++ '\x00' :: s2) n p = scanEndGo g s1 n p := by
  intro n
  induction n with
  | zero => intros; rfl
  | succ n ih =>
    intro p hp
    simp only [scanEndGo, sentinelNth_agree s2 p hp]
    by_cases hg : (g (sentinelNth s1 p) &&
        !(decide (sentinelNth s1 p = '\x00'))) = true
    · have hnul : sentinelNth s1 p ≠ '\x00' := by
        have := (Bool.and_eq_true _ _).mp hg |>.2
        simpa using this
      have hlt : p < s1.length := lt_of_sentinelNth_ne_nul hnul
      simp only [hg, if_true]
      exact ih (p + 1) (by omega)
    · simp [hg]

theorem scanEnd_agree (g : Char → Bool) {s1 : List Char} (s2 : List Char)
    {p : Nat} (hp : p ≤ s1.length) :
    scanEnd g (s1 ++ '\x00' :: s2) p = scanEnd g s1 p := by
  unfold scanEnd
  rw [scanEndGo_agree g s2 _ p hp]
  apply scanEndGo_congr g s1 _ _ p _ (Nat.le_refl _)
  simp only [List.length_append, List.length_cons]
  omega

theorem stepAt_agree {s1 : List Char} (s2 : List Char) {q : Nat}
    (hq : q < s1.length) :
    stepAt (s1 ++ '\x00' :: s2) q = stepAt s1 q := by
  have hq1 : q + 1 ≤ s1.length := hq
  have hscan : ∀ g : Char → Bool, scanEnd g s1 q ≤ s1.length := fun g =>
    scanEnd_le g s1 (s1.length - q) q (Nat.le_refl _) (Nat.le_of_lt hq)
  unfold stepAt
  rw [sentinelNth_agree s2 q (Nat.le_of_lt hq), sentinelNth_agree s2 (q + 1) hq1,
    scanEnd_agree (fun current => decide (current ≠ '\"')) s2 (Nat.le_of_lt hq),
    scanEnd_agree isIdContinue s2 (Nat.le_of_lt hq),
    scanEnd_agree Char.isDigit s2 (Nat.le_of_lt hq),
    offsetAt_agree s2 q (Nat.le_of_lt hq),
    offsetAt_agree s2 _ (hscan (fun current => decide (current ≠ '\"'))),
    offsetAt_agree s2 _ (hscan isIdContinue),
    offsetAt_agree s2 _ (hscan Char.isDigit),
    byteSlice_agree _ (offsetAt_le_byteLen s1 _),
    byteSlice_agree _ (offsetAt_le_byteLen s1 _),
    byteSlice_agree _ (offsetAt_le_byteLen s1 _)]

/-- Lexer runs agree step by step on `s1 ++ '\x00' :: s2` and on `s1`,
from any position inside `s1`. -/
theorem lexRun_agree (s1 s2 : List Char) :
    ∀ fuel p, p ≤ s1.length →
      lexRun fuel (stateAt (s1 ++ '\x00' :: s2) p) =
        lexRun fuel (stateAt s1 p) := by
  intro fuel
  induction fuel with
  | zero => intros; rfl
  | succ n ih =>
    intro p hp
    have hwle : wsEnd s1 p ≤ s1.length :=
      wsEnd_le s1 (s1.length - p) p (Nat.le_refl _) hp
    simp only [lexRun, nextToken_stateAt, wsEnd_agree s2 hp,
      sentinelNth_agree s2 _ hwle]
    by_cases hnul : sentinelNth s1 (wsEnd s1 p) = '\x00'
    · simp [hnul]
    · have hlt : wsEnd s1 p < s1.length := lt_of_sentinelNth_ne_nul hnul
      simp only [hnul, if_false, stepAt_agree s2 hlt]
      rw [ih _ (stepAt_le s1 _ hlt)]

/-! ## The claims -/

/-- C1. The claim states that pulling tokens repeatedly always
terminates, in particular on inputs containing `"` or an unrecognized
character such as `@`. The code violates this: the fall-through arm of
`<Lexer as Iterator>::next` builds the `UnexpectedChar` token without ever
calling `advance`, so on input `"@"` every pull returns the same token
from an unchanged state and the token stream never reaches end-of-input
(no fuel suffices for `lexRun`). -/
theorem C1_lexer_loops_on_unexpected_char :
    (Lexer.new ['@']).nextToken =
      some (⟨.UnexpectedChar '@', ⟨0, 1⟩⟩, Lexer.new ['@']) ∧
    ∀ fuel : Nat, lexRun fuel (Lexer.new ['@']) = none := by
  refine ⟨rfl, ?_⟩
  intro fuel
  induction fuel with
  | zero => rfl
  | succ n ih =>
    have h : lexRun (n + 1) (Lexer.new ['@']) =
        (lexRun n (Lexer.new ['@'])).map
          (⟨.UnexpectedChar '@', ⟨0, 1⟩⟩ :: ·) := rfl
    rw [h, ih]
    rfl

/-- C2. The claim states that on a leading `"` the lexer scans up to
the next `"` and emits a string literal carrying the raw text between the
delimiters, resuming after it. The code violates this:
`Lexer::next_string_token` starts its scan *at* the opening quote with the
predicate `current != '"'`, which is false immediately, so it emits an
empty string literal with the empty span `[0, 0)` and leaves the state
unchanged — lexing `"abc"` (with quotes) never produces `abc` and never
terminates. -/
theorem C2_string_token_empty_and_stuck :
    (Lexer.new "\"abc\"".toList).nextToken =
      some (⟨.StringLiteral "", ⟨0, 0⟩⟩, Lexer.new "\"abc\"".toList) ∧
    ∀ fuel : Nat, lexRun fuel (Lexer.new "\"abc\"".toList) = none := by
  refine ⟨rfl, ?_⟩
  intro fuel
  induction fuel with
  | zero => rfl
  | succ n ih =>
    have h : lexRun (n + 1) (Lexer.new "\"abc\"".toList) =
        (lexRun n (Lexer.new "\"abc\"".toList)).map
          (⟨.StringLiteral "", ⟨0, 0⟩⟩ :: ·) := rfl
    rw [h, ih]
    rfl

/-- C3. The claim states that every two-character punctuation token,
`**` included, has span exactly 2. The code violates this for `**`: the
`('*', '*')` arm of `<Lexer as Iterator>::next` calls `advance_with`
(one character, span `[offset, offset + 1)`) instead of
`advance_twice_with`, so lexing `"**"` yields a `StarStar` token of span 1
followed by a `Star` token — spans `[1, 1]`, not `[2]`. -/
theorem C3_star_star_has_span_one :
    lexRun 5 (Lexer.new "**".toList) =
      some [⟨.Punctuation .StarStar, ⟨0, 1⟩⟩, ⟨.Punctuation .Star, ⟨1, 2⟩⟩] ∧
    (lexRun 5 (Lexer.new "**".toList)).map
      (·.map (fun t => t.location.stop - t.location.start)) = some [1, 1] :=
  ⟨rfl, rfl⟩

/-- C4. Parsing `"var x 5;"` fails with a `ParseError` whose
`expected` field renders the `=` token (```=```, via the spec-modelled
`Punctuation.Eq` display) and whose `got` field is the integer-literal
token `5` at bytes `[6, 7)`. -/
theorem C4_var_missing_eq_error :
    parseSource 64 64 "var x 5;".toList =
      some (.error ⟨"`=`", some ⟨.IntegerLiteral 5, ⟨6, 7⟩⟩⟩) := rfl

/-- C5, counterexample. The claim states that a successfully parsed
expression's location starts at its leftmost token's start (for a
parenthesized expression, at the `(`) and ends at its rightmost consumed
token's end (the `)`). The code violates this: the `OpenParent` arm of
`Parser::parse_primary_expression` returns the inner expression unchanged,
so parsing `"(a)"` yields the identifier `a` with location `[1, 2)` — its
start is not 0, the start of the leftmost token `(`, and its end is not 3,
the end of the consumed `)`. -/
theorem C5_parenthesized_location_counterexample :
    parseExpressionSource 64 64 "(a)".toList =
      some (.ok (.Identifier ⟨"a", ⟨1, 2⟩⟩, [])) ∧
    (Expression.Identifier ⟨"a", ⟨1, 2⟩⟩).location.start ≠ 0 ∧
    (Expression.Identifier ⟨"a", ⟨1, 2⟩⟩).location.stop ≠ 3 :=
  ⟨rfl, by decide, by decide⟩

/-- C5, amended. For every expression that parses successfully, every
composite AST node spans from its leftmost child's start to its rightmost
child's (or trailing operator's) end — `Binary`, `Postfix` and
`FieldAccess` span from the left child's start to the right child's or
operator token's end, a `Call` starts at its callee's start (its end is
set from the consumed `)`), a function literal ends at its body block's
end, recursively through statements in function bodies. However, a
parenthesized expression is returned with the inner expression's location
unchanged, so the top-level location's start (end) equals the leftmost
(rightmost) token's start (end) only when those tokens are not the
enclosing parentheses (see the counterexample). -/
theorem C5_parser_location_spans :
    ∀ (fuel : Nat) (precedence : Precedence) (ts : List Token)
      (e : Expression) (rest : List Token),
      parseExpression fuel precedence ts = some (.ok (e, rest)) →
      e.spansChildren :=
  fun fuel precedence ts e rest h =>
    (parseSpans fuel).2.1 precedence ts e rest h

/-- Witness for `C5_parser_location_spans`: parsing the token list of
`"a + b"` succeeds, and the theorem yields the span invariant of the
resulting `Binary` node. -/
theorem C5_parser_location_spans_witness :
    (Expression.Binary (Expression.Identifier ⟨"a", ⟨0, 1⟩⟩)
      (Expression.Identifier ⟨"b", ⟨4, 5⟩⟩)
      ⟨.Punctuation .Plus, ⟨2, 3⟩⟩ ⟨0, 5⟩).spansChildren :=
  C5_parser_location_spans 64 .Lowest
    [⟨.Identifier "a", ⟨0, 1⟩⟩, ⟨.Punctuation .Plus, ⟨2, 3⟩⟩,
     ⟨.Identifier "b", ⟨4, 5⟩⟩] _ [] rfl

/-- C6, counterexample. The claim states that parsing `"("` fails with
a `ParseError` expecting `)` (rendered ```)```) with `got = none`. In the
code, the recursive `parse_expression` call for the parenthesized inner
expression fails first: `parse_primary_expression` finds the token stream
exhausted and reports `expected = "expression"`, `got = none` — not the
`)` expectation. -/
theorem C6_open_paren_error_counterexample :
    parseSource 64 64 "(".toList = some (.error ⟨"expression", none⟩) ∧
    "expression" ≠ (Punctuation.CloseParent).display :=
  ⟨rfl, by decide⟩

/-- C6, amended. Parsing `"("` fails with a `ParseError` whose
`expected` field is `"expression"` (the inner primary-expression parse
fails on the exhausted stream before the `)` is ever demanded) and whose
`got` field is `none`. -/
theorem C6_open_paren_error :
    parseSource 64 64 "(".toList = some (.error ⟨"expression", none⟩) := rfl

/-- C7. Equal-precedence chains fold left-associatively: parsing
`"a + b - c"` yields `Binary(Binary(a, b, +), c, -)` (and therefore not
`Binary(a, Binary(b, c, -), +)`). -/
theorem C7_left_associative :
    parseExpressionSource 64 64 "a + b - c".toList =
      some (.ok (.Binary
        (.Binary (.Identifier ⟨"a", ⟨0, 1⟩⟩) (.Identifier ⟨"b", ⟨4, 5⟩⟩)
          ⟨.Punctuation .Plus, ⟨2, 3⟩⟩ ⟨0, 5⟩)
        (.Identifier ⟨"c", ⟨8, 9⟩⟩)
        ⟨.Punctuation .Minus, ⟨6, 7⟩⟩ ⟨0, 9⟩, [])) := rfl

/-- C8. Higher-precedence operators bind tighter: parsing
`"a + b * c"` yields `Binary(a, Binary(b, c, *), +)`, because `*` maps to
`Product`, which is strictly above the `Sum` minimum precedence passed for
`+`'s right-hand side. -/
theorem C8_precedence_binds_tighter :
    parseExpressionSource 64 64 "a + b * c".toList =
      some (.ok (.Binary
        (.Identifier ⟨"a", ⟨0, 1⟩⟩)
        (.Binary (.Identifier ⟨"b", ⟨4, 5⟩⟩) (.Identifier ⟨"c", ⟨8, 9⟩⟩)
          ⟨.Punctuation .Star, ⟨6, 7⟩⟩ ⟨4, 9⟩)
        ⟨.Punctuation .Plus, ⟨2, 3⟩⟩ ⟨0, 9⟩, [])) := rfl

/-- C9. The lexer treats the first NUL character of the source as
end-of-input: lexing `s1 ++ '\x00' :: s2` produces exactly the same
result as lexing `s1` alone — the tokens scanned before the NUL, and
nothing at or after it (in particular, lexing `a`, NUL, `b` yields only
the identifier token `a`). The code reads past the end of the character
stream as the `'\0'` sentinel (`unwrap_or('\0')`) and `Lexer::eof` tests
`current == '\0'`, so a genuine NUL in the source is indistinguishable
from the end of input. -/
theorem C9_first_nul_is_end_of_input :
    (∀ (s1 s2 : List Char) (fuel : Nat),
      lexRun fuel (Lexer.new (s1 ++ '\x00' :: s2)) =
        lexRun fuel (Lexer.new s1)) ∧
    lexRun 5 (Lexer.new ['a', '\x00', 'b']) =
      some [⟨.Identifier "a", ⟨0, 1⟩⟩] := by
  constructor
  · intro s1 s2 fuel
    rw [new_eq_stateAt, new_eq_stateAt]
    exact lexRun_agree s1 s2 fuel 0 (Nat.zero_le _)
  · rfl

/-- C10. A trailing comma immediately before the closing `)` is
accepted both in call-argument lists and in function-literal parameter
lists: `"f(a,);"` parses to a `Call` whose argument list is exactly the
single identifier `a` — the same arguments as `"f(a);"` — and
a function literal with a trailing comma in its parameter list and an
empty brace-block body parses to a `Function` with the same single
parameter `x` as without the trailing comma. -/
theorem C10_trailing_comma_accepted :
    parseSource 64 64 "f(a,);".toList =
      some (.ok [.Expression ⟨0, 6⟩ (.Call (.Identifier ⟨"f", ⟨0, 1⟩⟩)
        [.Identifier ⟨"a", ⟨2, 3⟩⟩] ⟨0, 5⟩)]) ∧
    parseSource 64 64 "f(a);".toList =
      some (.ok [.Expression ⟨0, 5⟩ (.Call (.Identifier ⟨"f", ⟨0, 1⟩⟩)
        [.Identifier ⟨"a", ⟨2, 3⟩⟩] ⟨0, 4⟩)]) ∧
    parseSource 64 64 "fun (x,) \x7b\x7d;".toList =
      some (.ok [.Expression ⟨0, 12⟩ (.Function [⟨"x", ⟨5, 6⟩⟩]
        (.mk [] ⟨9, 11⟩) ⟨0, 11⟩)]) ∧
    parseSource 64 64 "fun (x) \x7b\x7d;".toList =
      some (.ok [.Expression ⟨0, 11⟩ (.Function [⟨"x", ⟨5, 6⟩⟩]
        (.mk [] ⟨8, 10⟩) ⟨0, 10⟩)]) :=
  ⟨rfl, rfl, rfl, rfl⟩

end Spectra
